import Mathlib

/-
  Verification development for the Pronto CCF extractor (ccf2pulse.py).

  The program's numeric code runs on Python ints and IEEE-754 double floats.
  Integers are modelled as ℤ / ℕ.  Double arithmetic is modelled exactly over
  ℚ by `fl`, correct rounding to 53 significant bits with ties to even, which
  coincides with IEEE-754 binary64 for all magnitudes that occur here (no
  overflow, no subnormals).  Python's `int()` on a float (truncation toward
  zero) is modelled by `pyInt`.
-/

namespace CCF

attribute [local semireducible] Rat.add Rat.mul Rat.inv Rat.sub

set_option maxRecDepth 200000

set_option maxHeartbeats 2000000

/-- Round a rational to the nearest integer, ties to even.  Used as the
significand rounding of the binary64 model. -/
def rne (q : ℚ) : ℤ :=
  if q - ⌊q⌋ < 1/2 then ⌊q⌋
  else if 1/2 < q - ⌊q⌋ then ⌊q⌋ + 1
  else if ⌊q⌋ % 2 = 0 then ⌊q⌋ else ⌊q⌋ + 1

/-- Normalize a positive rational `s` (tracking the exponent `e` so that
`s * 2^e` is invariant) into the binade `[2^52, 2^53)`, with fuel. -/
def shiftToRange : ℕ → ℚ → ℤ → ℚ × ℤ
  | 0, s, e => (s, e)
  | f+1, s, e =>
    if s < 2^52 then shiftToRange f (2*s) (e-1)
    else if 2^53 ≤ s then shiftToRange f (s/2) (e+1)
    else (s, e)

/-- Correctly rounded IEEE-754 binary64 value of a rational (for the normal
range; negative inputs are not needed by this development and map to 0). -/
def fl (q : ℚ) : ℚ :=
  if q ≤ 0 then 0
  else ((rne (shiftToRange 200 q 0).1 : ℤ) : ℚ) * (2:ℚ) ^ (shiftToRange 200 q 0).2

/-- Python `int()` applied to a float value: truncation toward zero. -/
def pyInt (q : ℚ) : ℤ := if q < 0 then -⌊-q⌋ else ⌊q⌋

/-- The double nearest to the literal `0.241246` of the source. -/
def c241 : ℚ := fl (241246/1000000)

/-- The double nearest to the literal `0.97` of the source. -/
def c97 : ℚ := fl (97/100)

/-- The double nearest to the literal `1.03` of the source. -/
def c103 : ℚ := fl (103/100)

/-- Source `to_usec(x, k) = int(x * k * 0.241246)`: the integer product is
exact, the multiplication by the double `0.241246` rounds, `int` truncates. -/
def to_usec (x k : ℤ) : ℤ := pyInt (fl (((x * k : ℤ) : ℚ) * c241))

/-- Source `rescale(x, old_k, k) = int(old_k/k * x)`: one rounded double
division, one rounded double multiplication, then truncation toward zero. -/
def rescale (x old_k k : ℤ) : ℤ :=
  pyInt (fl (fl ((old_k : ℚ) / (k : ℚ)) * (x : ℚ)))

/-- Source `freq2k(freq) = int(1000000.0 / (freq * 0.241246))`. -/
def freq2k (freq : ℤ) : ℤ :=
  pyInt (fl (1000000 / fl ((freq : ℚ) * c241)))

/-- Source line 145, first component: `k_low = int(k * 0.97)`. -/
def k_low (k : ℤ) : ℤ := pyInt (fl ((k : ℚ) * c97))

/-- Source line 145, second component: `k_high = int(k * 1.03)`. -/
def k_high (k : ℤ) : ℤ := pyInt (fl ((k : ℚ) * c103))

/-
  Buffer model.  The mmap'ed file is an immutable byte sequence, modelled as
  `List ℕ`.  `b[t]?` models Python's `b[t]` for `t ≥ 0`: `none` corresponds to
  an `IndexError`.  `(b.drop i).take n` models the clamping slice `b[i:i+n]`
  (for nonnegative indices).  `read?` models `struct.unpack_from` bounds
  checking: it fails (struct.error, fatal) when fewer than `n` bytes remain.
-/

/-- A CCF byte buffer. -/
abbrev Buf := List ℕ

/-- Big-endian value of a byte list. -/
def beVal (l : List ℕ) : ℕ := l.foldl (fun a c => a * 256 + c) 0

/-- Checked read of `n` bytes at offset `i`, as done by `struct.unpack_from`:
`none` models the `struct.error` raised when the buffer is too short. -/
def read? (b : Buf) (i n : ℕ) : Option (List ℕ) :=
  if i + n ≤ b.length then some ((b.drop i).take n) else none

/-- Big-endian `u16` field read (format `>H`). -/
def u16? (b : Buf) (i : ℕ) : Option ℕ := (read? b i 2).map beVal

/-- Big-endian `u32` field read (format `>I`). -/
def u32? (b : Buf) (i : ℕ) : Option ℕ := (read? b i 4).map beVal

/-- Source `unpack_seq(b, i, n)`: reads `n` big-endian `(on, off)` u16 pairs
starting at `i`, 4 bytes per pair, and returns the `2n` values in file order.
`none` models the fatal `struct.error` of an out-of-bounds pair read. -/
def unpack_seq (b : Buf) (i : ℕ) : ℕ → Option (List ℕ)
  | 0 => some []
  | n+1 =>
    match u16? b i, u16? b (i+2), unpack_seq b (i+4) n with
    | some v1, some v2, some rest => some (v1 :: v2 :: rest)
    | _, _, _ => none

/-- The three command line options consumed by the core (source `parse_args`). -/
structure Args where
  lirc : Bool
  rescaleHz : Option ℤ
  carrier : ℤ
deriving DecidableEq, Repr

/-- Python truthiness of `args.rescale` (`None` and `0` are falsy). -/
def rescaleActive (a : Args) : Bool :=
  match a.rescaleHz with
  | none => false
  | some r => decide (r ≠ 0)

/-- The pulse values printed by source `dump_pairs` for one sequence: with
`--lirc` each value is converted to µs with the given factor, otherwise with
`--rescale` each value is rescaled from `base` to the target factor, otherwise
the raw values are printed. -/
def dump_pairs_vals (xs : List ℕ) (base : ℤ) (a : Args) : List ℤ :=
  if a.lirc then xs.map (fun x => to_usec (x : ℤ) base)
  else
    match a.rescaleHz with
    | some r => if r ≠ 0 then xs.map (fun x => rescale (x : ℤ) base (freq2k r)) else xs.map (fun x => (x : ℤ))
    | none => xs.map (fun x => (x : ℤ))

/-- One confirmed button block as emitted by source `dump_button`: the decoded
name bytes, the printed carrier factor `baseP`, the original header fields, the
raw pulse sequences, and the printed (possibly converted) pulse values. -/
structure Button where
  name : List ℕ
  baseP : ℤ
  base : ℕ
  once_k : ℕ
  rep_k : ℕ
  onceRaw : List ℕ
  repRaw : List ℕ
  onceVals : List ℤ
  repVals : List ℤ
deriving DecidableEq, Repr

/-- Outcome of handing one candidate to `dump_button`: a fatal exception
(struct.error or IndexError), a silent rejection of the size check, or an
emitted block. -/
inductive DumpResult where
  | fatal
  | rejected
  | block (btn : Button)
deriving DecidableEq, Repr

/-- Source `dump_button(b, i, args)`: decode the 14-byte header
`>HI2xHHH` at offset `i-6`, check `size == 6 + 8 + (once+rep)*4` (the source
writes the pair width as `(2+2)`), and on
success resolve the name (length byte at `name_offset`, then a clamping slice
for the characters) and the two pulse sequences.  Offsets `i < 6` would wrap
around in Python (negative `unpack_from` offset) and are not modelled;
theorems about this function assume `6 ≤ i`. -/
def dump_button (b : Buf) (i : ℕ) (a : Args) : DumpResult :=
  match u16? b (i-6), u32? b (i-4), u16? b (i+2), u16? b (i+4), u16? b (i+6) with
  | some n, some j, some base, some once_k, some rep_k =>
    if n = 6 + 8 + (once_k + rep_k) * 4 then
      match b[j]? with
      | none => .fatal
      | some l =>
        let name := (b.drop (j+1)).take l
        let baseP : ℤ := if rescaleActive a then freq2k (a.rescaleHz.getD 0) else (base : ℤ)
        match unpack_seq b (i+8) once_k, unpack_seq b (i+8+once_k*4) rep_k with
        | some xs, some ys =>
          .block ⟨name, baseP, base, once_k, rep_k, xs, ys,
                  dump_pairs_vals xs (base : ℤ) a, dump_pairs_vals ys (base : ℤ) a⟩
        | _, _ => .fatal
    else .rejected
  | _, _, _, _, _ => .fatal

/-- Whether the 3-zero-byte marker occurs at offset `i`. -/
def matchAt (b : Buf) (i : ℕ) : Bool :=
  b[i]? == some 0 && b[i+1]? == some 0 && b[i+2]? == some 0

/-- Source `b.find(b'\x00\x00\x00', off)`: the smallest offset `≥ off` where
the marker occurs, `none` when there is none (mmap returns -1).  Fueled; the
fuel `b.length + 1` used by the scanner always suffices. -/
def findFrom (b : Buf) : ℕ → ℕ → Option ℕ
  | 0, _ => none
  | fuel+1, off =>
    if b.length < off + 3 then none
    else if matchAt b off then some off
    else findFrom b fuel (off+1)

/-- Result of a whole run of source `search_ccf`: the magic check failed, or
the scan died on an uncaught exception, or it completed.  The trace lists, in
order, every candidate offset that was handed to `dump_button` together with
its outcome. -/
inductive ScanResult where
  | formatError
  | fatal (trace : List (ℕ × DumpResult))
  | done (trace : List (ℕ × DumpResult))
deriving DecidableEq, Repr

/-- The fast-reject heuristic of source line 159,
`b[i+4] == 0 and b[i+6] == 0 and b[i+3] > k_low and b[i+3] < k_high`,
evaluated with Python's short-circuit `and`: `none` models an `IndexError`
raised by one of the byte reads (fatal, uncaught), `some c` the value of the
whole condition. -/
def heuristic? (b : Buf) (kl kh : ℤ) (i : ℕ) : Option Bool :=
  match b[i+4]? with
  | none => none
  | some v4 =>
    if v4 = 0 then
      match b[i+6]? with
      | none => none
      | some v6 =>
        if v6 = 0 then
          match b[i+3]? with
          | none => none
          | some v3 => some (decide (kl < (v3 : ℤ)) && decide ((v3 : ℤ) < kh))
        else some false
    else some false

/-- The scan loop of source `search_ccf` (lines 152-165): repeatedly find the
next marker `i`, apply the fast-reject heuristic, hand survivors to
`dump_button`, and continue at `i + 3`. -/
def scanLoop (b : Buf) (a : Args) (kl kh : ℤ) :
    ℕ → ℕ → List (ℕ × DumpResult) → ScanResult
  | 0, _, acc => .done acc.reverse
  | fuel+1, off, acc =>
    match findFrom b (b.length + 1) off with
    | none => .done acc.reverse
    | some i =>
      match heuristic? b kl kh i with
      | none => .fatal acc.reverse
      | some false => scanLoop b a kl kh fuel (i+3) acc
      | some true =>
        match dump_button b i a with
        | .fatal => .fatal (acc.reverse ++ [(i, .fatal)])
        | r => scanLoop b a kl kh fuel (i+3) ((i, r) :: acc)

/-- First magic signature, the 8 bytes expected at offset 8. -/
def magic1 : List ℕ := [0x40, 0xA5, 0x5A, 0x40, 0x5F, 0x43, 0x43, 0x46]

/-- Second magic signature, the 4 bytes expected at offset 32. -/
def magic2 : List ℕ := [0x43, 0x43, 0x46, 0x00]

/-- Source `search_ccf`: check the two magic signatures (clamping slices
compared against the constants), then scan the whole buffer. -/
def search_ccf (b : Buf) (a : Args) : ScanResult :=
  if (b.drop 8).take 8 = magic1 ∧ (b.drop 32).take 4 = magic2 then
    scanLoop b a (k_low (freq2k a.carrier)) (k_high (freq2k a.carrier)) (b.length + 1) 0 []
  else .formatError

/-- The blocks reported by a run, in report order, with their marker offsets. -/
def blocksOf (r : ScanResult) : List (ℕ × Button) :=
  match r with
  | .formatError => []
  | .fatal t => t.filterMap (fun p => match p.2 with | .block btn => some (p.1, btn) | _ => none)
  | .done t => t.filterMap (fun p => match p.2 with | .block btn => some (p.1, btn) | _ => none)

/-- The trace of candidates handed to the validator (empty for a magic failure). -/
def traceOf (r : ScanResult) : List (ℕ × DumpResult) :=
  match r with
  | .formatError => []
  | .fatal t => t
  | .done t => t

/-- Whether the run completed without a fatal error. -/
def isDone (r : ScanResult) : Bool :=
  match r with
  | .done _ => true
  | _ => false

def args40 : Args := ⟨false, none, 40000⟩

def B3 : Buf :=
  [0x41, 0x41, 0x41, 0x41, 0x41, 0x41, 0x41, 0x41,
   0x40, 0xA5, 0x5A, 0x40, 0x5F, 0x43, 0x43, 0x46,
   0x41, 0x41, 0x41, 0x41, 0x41, 0x41, 0x41, 0x41,
   0x41, 0x41, 0x41, 0x41, 0x41, 0x41, 0x41, 0x41,
   0x43, 0x43, 0x46, 0x00,
   0x00, 0x12, 0x00, 0x00, 0x00, 0x4B, 0x00, 0x00, 0x00, 0x67, 0x00, 0x01, 0x00, 0x00,
   0x01, 0x01, 0x01, 0x01,
   0x00, 0x12, 0x00, 0x00, 0x00, 0x48, 0x00, 0x00, 0x00, 0x67, 0x00, 0x01, 0x00, 0x00,
   0x01, 0x01, 0x01, 0x01,
   0x02, 0x41, 0x42, 0x05]

def B2 : Buf :=
  [0x41, 0x41, 0x41, 0x41, 0x41, 0x41, 0x41, 0x41,
   0x40, 0xA5, 0x5A, 0x40, 0x5F, 0x43, 0x43, 0x46,
   0x41, 0x41, 0x41, 0x41, 0x41, 0x41, 0x41, 0x41,
   0x41, 0x41, 0x41, 0x41, 0x41, 0x41, 0x41, 0x41,
   0x43, 0x43, 0x46, 0x00,
   0x00, 0x12, 0x00, 0x00, 0x00, 0x36, 0x00, 0x00, 0x00, 0x6A, 0x00, 0x01, 0x00, 0x00,
   0x01, 0x00, 0x01, 0x02,
   0x02, 0x48, 0x49]

/-
  Spec-side definitions for the scanner heuristic, written from the
  specification's words (not from the source), for comparison with the code:
  the spec derives `k_target` by exact truncating division, takes
  `k_low = floor(0.97 k)`, `k_high = ceil(1.03 k)`, and an inclusive band.
-/

/-- Modelled from the spec: `k_target = floor(1000000 / (carrier_Hz × 0.241246))`
in exact rational arithmetic. -/
def specKTarget (carrier : ℤ) : ℤ := ⌊(1000000 : ℚ) / ((carrier : ℚ) * (241246/1000000))⌋

/-- Modelled from the spec: `k_low = floor(0.97 × k_target)`. -/
def specKLow (carrier : ℤ) : ℤ := ⌊(97/100 : ℚ) * (specKTarget carrier : ℚ)⌋

/-- Modelled from the spec: `k_high = ceil(1.03 × k_target)`. -/
def specKHigh (carrier : ℤ) : ℤ := ⌈(103/100 : ℚ) * (specKTarget carrier : ℚ)⌉

/-- Modelled from the spec: the fast-reject heuristic as claim C2 words it —
`b[i+4] = 0`, `b[i+6] = 0`, and `b[i+3]` within the inclusive band
`[specKLow, specKHigh]`. -/
def specHeuristic (b : Buf) (i : ℕ) (carrier : ℤ) : Bool :=
  b[i+4]? == some 0 && b[i+6]? == some 0 &&
    match b[i+3]? with
    | some v3 => decide (specKLow carrier ≤ (v3 : ℤ)) && decide ((v3 : ℤ) ≤ specKHigh carrier)
    | none => false

/-- Arguments with `--lirc` and a rescale frequency both supplied. -/
def argsLirc : Args := ⟨true, some 38000, 40000⟩

/-- The structurally valid block of `B2` at marker 42 (carrier factor 106),
as `dump_button` would emit it. -/
def btnB2 : Button := ⟨[72, 73], 106, 106, 1, 0, [256, 258], [], [256, 258], []⟩

/-- The first block reported from `B3` (marker 42): its name string is read
from offset 75 whose length byte is 5 with no bytes after it, so the clamping
slice yields the empty name. -/
def btnB3a : Button := ⟨[], 103, 103, 1, 0, [257, 257], [], [257, 257], []⟩

/-- The second block reported from `B3` (marker 60), name bytes `AB`. -/
def btnB3b : Button := ⟨[65, 66], 103, 103, 1, 0, [257, 257], [], [257, 257], []⟩

/-- The full candidate trace of scanning `B3` with default arguments. -/
def traceB3 : List (ℕ × DumpResult) := [(42, .block btnB3a), (60, .block btnB3b)]

/-
  Lemmas about the binary64 model.
-/

theorem rne_err (q : ℚ) : |((rne q : ℤ) : ℚ) - q| ≤ 1/2 := by
  have h1 : ((⌊q⌋ : ℤ) : ℚ) ≤ q := Int.floor_le q
  have h2 : q < ⌊q⌋ + 1 := Int.lt_floor_add_one q
  unfold rne
  split_ifs <;> rw [abs_sub_le_iff] <;> constructor <;> push_cast <;> linarith

theorem rne_ge_floor (q : ℚ) : ⌊q⌋ ≤ rne q := by
  unfold rne; split_ifs <;> omega

theorem shiftToRange_pos (f : ℕ) : ∀ (s : ℚ) (e : ℤ), 0 < s →
    0 < (shiftToRange f s e).1 := by
  induction f with
  | zero => intro s e hs; simpa [shiftToRange] using hs
  | succ f ih =>
    intro s e hs
    unfold shiftToRange
    split_ifs with h1 h2
    · exact ih (2*s) (e-1) (by linarith)
    · exact ih (s/2) (e+1) (by linarith)
    · simpa using hs

theorem shiftToRange_spec (f : ℕ) : ∀ (s : ℚ) (e : ℤ), 0 < s →
    (2:ℚ)^52 ≤ s * 2^f → s < 2^53 * 2^f →
    (2:ℚ)^52 ≤ (shiftToRange f s e).1 ∧ (shiftToRange f s e).1 < 2^53 ∧
      (shiftToRange f s e).1 * 2^(shiftToRange f s e).2 = s * 2^e := by
  induction f with
  | zero =>
    intro s e hs hlo hhi
    simp only [shiftToRange, pow_zero, mul_one] at *
    exact ⟨hlo, hhi, trivial⟩
  | succ f ih =>
    intro s e hs hlo hhi
    have hf0 : (0:ℚ) < 2^f := by positivity
    have hf1 : (1:ℚ) ≤ 2^f := one_le_pow₀ one_le_two
    rw [pow_succ (2:ℚ) f] at hlo hhi
    unfold shiftToRange
    split_ifs with h1 h2
    · have hlo' : (2:ℚ)^52 ≤ (2*s) * 2^f := by
        calc (2:ℚ)^52 ≤ s * (2^f * 2) := hlo
          _ = (2*s) * 2^f := by ring
      have hhi' : 2*s < (2:ℚ)^53 * 2^f := by
        have ha : 2*s < (2:ℚ)^53 := by
          have : (2:ℚ)^53 = 2 * 2^52 := by ring
          rw [this]; linarith
        have hb : (2:ℚ)^53 = (2:ℚ)^53 * 1 := by ring
        calc 2*s < (2:ℚ)^53 := ha
          _ = (2:ℚ)^53 * 1 := hb
          _ ≤ (2:ℚ)^53 * 2^f := by
              apply mul_le_mul_of_nonneg_left hf1 (by positivity)
      obtain ⟨a1, a2, a3⟩ := ih (2*s) (e-1) (by linarith) hlo' hhi'
      refine ⟨a1, a2, ?_⟩
      rw [a3, zpow_sub_one₀ (by norm_num : (2:ℚ) ≠ 0) e]
      ring
    · have hlo' : (2:ℚ)^52 ≤ (s/2) * 2^f := by
        have ha : (2:ℚ)^52 ≤ s/2 := by
          have : (2:ℚ)^53 = 2 * 2^52 := by ring
          rw [this] at h2; linarith
        calc (2:ℚ)^52 = (2:ℚ)^52 * 1 := by ring
          _ ≤ (2:ℚ)^52 * 2^f := by
              apply mul_le_mul_of_nonneg_left hf1 (by positivity)
          _ ≤ (s/2) * 2^f := by
              apply mul_le_mul_of_nonneg_right ha (le_of_lt hf0)
      have hhi' : s/2 < (2:ℚ)^53 * 2^f := by
        rw [div_lt_iff₀ (by norm_num : (0:ℚ) < 2)]
        calc s < (2:ℚ)^53 * (2^f * 2) := hhi
          _ = (2:ℚ)^53 * 2^f * 2 := by ring
      obtain ⟨a1, a2, a3⟩ := ih (s/2) (e+1) (by linarith) hlo' hhi'
      refine ⟨a1, a2, ?_⟩
      rw [a3, zpow_add_one₀ (by norm_num : (2:ℚ) ≠ 0) e]
      ring
    · refine ⟨by linarith, by linarith, rfl⟩

theorem fl_zero : fl 0 = 0 := by simp [fl]

theorem fl_nonneg (q : ℚ) : 0 ≤ fl q := by
  unfold fl
  split_ifs with h
  · exact le_refl 0
  · push_neg at h
    have hp := shiftToRange_pos 200 q 0 h
    have h1 : (0:ℤ) ≤ ⌊(shiftToRange 200 q 0).1⌋ := Int.floor_nonneg.mpr (le_of_lt hp)
    have h2 := rne_ge_floor (shiftToRange 200 q 0).1
    have h3 : (0:ℚ) ≤ ((rne (shiftToRange 200 q 0).1 : ℤ) : ℚ) := by
      exact_mod_cast le_trans h1 h2
    positivity

theorem fl_err (q : ℚ) (h1 : 1/2^148 ≤ q) (h2 : q ≤ 2^250) :
    |fl q - q| ≤ q / 2^53 := by
  have hq : 0 < q := lt_of_lt_of_le (by positivity) h1
  have hlo : (2:ℚ)^52 ≤ q * 2^200 := by
    have : (1/2^148 : ℚ) * 2^200 ≤ q * 2^200 := by
      apply mul_le_mul_of_nonneg_right h1 (by positivity)
    calc (2:ℚ)^52 = (1/2^148) * 2^200 := by
          rw [div_mul_eq_mul_div, one_mul, eq_div_iff (by positivity), ← pow_add]
      _ ≤ q * 2^200 := this
  have hhi : q < (2:ℚ)^53 * 2^200 := by
    calc q ≤ 2^250 := h2
      _ < (2:ℚ)^53 * 2^200 := by rw [← pow_add]; exact pow_lt_pow_right₀ (by norm_num) (by norm_num)
  obtain ⟨hs1, hs2, hs3⟩ := shiftToRange_spec 200 q 0 hq hlo hhi
  rw [zpow_zero, mul_one] at hs3
  set s := (shiftToRange 200 q 0).1 with hsdef
  set e := (shiftToRange 200 q 0).2 with hedef
  have hfl : fl q = ((rne s : ℤ) : ℚ) * 2^e := by
    unfold fl
    rw [if_neg (not_le.mpr hq)]
  have hepos : (0:ℚ) < 2^e := zpow_pos (by norm_num) e
  have key : |fl q - q| = |((rne s : ℤ) : ℚ) - s| * 2^e := by
    rw [hfl, ← hs3, ← sub_mul, abs_mul, abs_of_pos hepos]
  have h2e : (2:ℚ)^e ≤ q / 2^52 := by
    rw [le_div_iff₀ (by positivity)]
    calc (2:ℚ)^e * 2^52 ≤ 2^e * s := by
          apply mul_le_mul_of_nonneg_left hs1 (le_of_lt hepos)
      _ = q := by rw [mul_comm]; exact hs3
  calc |fl q - q| = |((rne s : ℤ) : ℚ) - s| * 2^e := key
    _ ≤ (1/2) * (q / 2^52) := by
        apply mul_le_mul (rne_err s) h2e (le_of_lt hepos) (by norm_num)
    _ = q / 2^53 := by ring

theorem pyInt_of_nonneg (q : ℚ) (h : 0 ≤ q) : pyInt q = ⌊q⌋ := by
  unfold pyInt
  rw [if_neg (not_lt.mpr h)]

theorem pyInt_nonneg (q : ℚ) (h : 0 ≤ q) : 0 ≤ pyInt q := by
  rw [pyInt_of_nonneg q h]
  exact Int.floor_nonneg.mpr h

theorem rescale_nonneg (x a b : ℤ) : 0 ≤ rescale x a b := by
  unfold rescale
  exact pyInt_nonneg _ (fl_nonneg _)

/-- Core accuracy bound for the float-based `rescale`: within the stated input
range the two double roundings shift the value by less than one half, so the
truncated result is within 1 of the exact rational floor. -/
theorem rescale_floor_close (x a b : ℤ)
    (hx : 0 ≤ x) (ha : 1 ≤ a) (hb : 1 ≤ b)
    (ha2 : a ≤ 2^60) (hb2 : b ≤ 2^60)
    (hv : (a:ℚ) * x / b ≤ 2^50) :
    ⌊(a:ℚ) * x / b⌋ - 1 ≤ rescale x a b ∧ rescale x a b ≤ ⌊(a:ℚ) * x / b⌋ + 1 := by
  have haQ : (0:ℚ) < (a:ℚ) := by exact_mod_cast (by omega : (0:ℤ) < a)
  have hbQ : (0:ℚ) < (b:ℚ) := by exact_mod_cast (by omega : (0:ℤ) < b)
  have haQ1 : (1:ℚ) ≤ (a:ℚ) := by exact_mod_cast ha
  have ha2Q : (a:ℚ) ≤ 2^60 := by exact_mod_cast ha2
  have hb2Q : (b:ℚ) ≤ 2^60 := by exact_mod_cast hb2
  set q1 : ℚ := (a:ℚ) / (b:ℚ) with hq1def
  have hq1pos : 0 < q1 := div_pos haQ hbQ
  have hq1lo60 : 1/2^60 ≤ q1 := by
    have h1b : (1:ℚ)/b ≤ q1 := by
      rw [hq1def]
      exact div_le_div_of_nonneg_right haQ1 (le_of_lt hbQ)
    calc (1:ℚ)/2^60 ≤ 1/b := one_div_le_one_div_of_le hbQ hb2Q
      _ ≤ q1 := h1b
  have hq1lo : 1/2^148 ≤ q1 := by
    calc (1:ℚ)/2^148 ≤ 1/2^60 := by norm_num
      _ ≤ q1 := hq1lo60
  have hbQ1 : (1:ℚ) ≤ (b:ℚ) := by exact_mod_cast hb
  have hq1hi : q1 ≤ 2^250 := by
    have : q1 ≤ (a:ℚ) := by
      rw [hq1def, div_le_iff₀ hbQ]
      nlinarith [mul_le_mul_of_nonneg_left hbQ1 (le_of_lt haQ)]
    calc q1 ≤ (a:ℚ) := this
      _ ≤ 2^60 := ha2Q
      _ ≤ 2^250 := by norm_num
  have e1 := abs_le.mp (fl_err q1 hq1lo hq1hi)
  by_cases hx0 : x = 0
  · subst hx0
    have hz : rescale 0 a b = 0 := by
      unfold rescale
      norm_num [fl_zero, pyInt]
    rw [hz]
    norm_num
  · have hx1 : (1:ℚ) ≤ (x:ℚ) := by exact_mod_cast (by omega : (1:ℤ) ≤ x)
    have hxQ : (0:ℚ) ≤ (x:ℚ) := by linarith
    set v : ℚ := (a:ℚ) * x / b with hvdef
    have hvq : v = q1 * x := by rw [hvdef, hq1def]; ring
    have hvpos : 0 < v := by rw [hvq]; exact mul_pos hq1pos (by linarith)
    set q2 : ℚ := fl q1 * x with hq2def
    have d1a : q2 - v ≤ v / 2^53 := by
      rw [hvq]
      have h : q2 - q1 * x = (fl q1 - q1) * x := by rw [hq2def]; ring
      have h2 : (fl q1 - q1) * x ≤ (q1/2^53) * x :=
        mul_le_mul_of_nonneg_right e1.2 hxQ
      calc q2 - q1 * x = (fl q1 - q1) * x := h
        _ ≤ (q1/2^53) * x := h2
        _ = q1 * x / 2^53 := by ring
    have d1b : v - q2 ≤ v / 2^53 := by
      rw [hvq]
      have h : q1 * x - q2 = (q1 - fl q1) * x := by rw [hq2def]; ring
      have h2 : (q1 - fl q1) * x ≤ (q1/2^53) * x := by
        apply mul_le_mul_of_nonneg_right _ hxQ
        linarith [e1.1]
      calc q1 * x - q2 = (q1 - fl q1) * x := h
        _ ≤ (q1/2^53) * x := h2
        _ = q1 * x / 2^53 := by ring
    have hfl1lo : q1/2 ≤ fl q1 := by linarith [e1.1]
    have hq2lo : 1/2^148 ≤ q2 := by
      have h1 : fl q1 ≤ fl q1 * x := le_mul_of_one_le_right (by linarith) hx1
      have h2 : (1:ℚ)/2^148 ≤ q1/2 := by
        have hc : (1:ℚ)/2^148 ≤ 1/2^61 := by norm_num
        linarith [hq1lo60]
      rw [hq2def]
      linarith
    have hq2hi : q2 ≤ 2^250 := by
      have hv53 : v / 2^53 ≤ 2^50 := by
        have : v / 2^53 ≤ v := by
          rw [div_le_iff₀ (by positivity : (0:ℚ) < 2^53)]
          nlinarith
        linarith
      linarith
    have e2 := abs_le.mp (fl_err q2 hq2lo hq2hi)
    have hq253 : q2 / 2^53 ≤ (v + v/2^53) / 2^53 := by
      apply div_le_div_of_nonneg_right _ (by positivity)
      linarith
    have hvsmall : v / 2^53 ≤ 1/8 := by
      rw [div_le_iff₀ (by positivity : (0:ℚ) < 2^53)]
      calc v ≤ 2^50 := hv
        _ ≤ 1/8 * 2^53 := by norm_num
    have hq2small : q2 / 2^53 ≤ 1/4 := by
      have : (v + v/2^53) / 2^53 ≤ 1/4 := by
        rw [div_le_iff₀ (by positivity : (0:ℚ) < 2^53)]
        calc v + v/2^53 ≤ 2^50 + 1/8 := by linarith
          _ ≤ 1/4 * 2^53 := by norm_num
      linarith
    have closeA : fl q2 ≤ v + 1/2 := by linarith [e2.2]
    have closeB : v - 1/2 ≤ fl q2 := by linarith [e2.1]
    have hres : rescale x a b = ⌊fl q2⌋ := by
      unfold rescale
      rw [hq2def, hq1def]
      exact pyInt_of_nonneg _ (fl_nonneg _)
    constructor
    · rw [hres]
      have h1 : ((⌊v⌋ : ℤ) : ℚ) - 1 ≤ fl q2 := by
        have := Int.floor_le v
        linarith
      have h2 : (((⌊v⌋ - 1 : ℤ)) : ℚ) ≤ fl q2 := by push_cast; linarith
      calc ⌊v⌋ - 1 = ⌊((⌊v⌋ - 1 : ℤ) : ℚ)⌋ := (Int.floor_intCast _).symm
        _ ≤ ⌊fl q2⌋ := Int.floor_le_floor h2
    · rw [hres]
      have h1 : ((⌊fl q2⌋ : ℤ) : ℚ) ≤ fl q2 := Int.floor_le _
      have h2 : v < ((⌊v⌋ : ℤ) : ℚ) + 1 := Int.lt_floor_add_one v
      have h3 : ((⌊fl q2⌋ : ℤ) : ℚ) < ((⌊v⌋ : ℤ) : ℚ) + 2 := by linarith
      have h4 : ⌊fl q2⌋ < ⌊v⌋ + 2 := by exact_mod_cast h3
      omega

/-- C7: for every pulse width `x` and positive carrier factors `a` and `b` in
the 16-bit range of the file format, rescaling from `a` to `b` and back
recovers `x` up to the error introduced by the two truncations: each
truncation loses less than one unit of the intermediate `b`-scale, i.e. at
most `⌈b/a⌉` target units, so the round trip is within `2⌈b/a⌉ + 2` of `x`
(rescaling is its own approximate inverse). -/
theorem C7_rescale_roundtrip (x a b : ℤ)
    (hx : 0 ≤ x) (hx2 : x ≤ 65535)
    (ha : 1 ≤ a) (ha2 : a ≤ 65535)
    (hb : 1 ≤ b) (hb2 : b ≤ 65535) :
    |rescale (rescale x a b) b a - x| ≤ 2 * ⌈(b:ℚ)/(a:ℚ)⌉ + 2 := by
  have haQ : (0:ℚ) < (a:ℚ) := by exact_mod_cast (by omega : (0:ℤ) < a)
  have hbQ : (0:ℚ) < (b:ℚ) := by exact_mod_cast (by omega : (0:ℤ) < b)
  have hxQ : (0:ℚ) ≤ (x:ℚ) := by exact_mod_cast hx
  have hx2Q : (x:ℚ) ≤ 65535 := by exact_mod_cast hx2
  have ha2Q : (a:ℚ) ≤ 65535 := by exact_mod_cast ha2
  have hb2Q : (b:ℚ) ≤ 65535 := by exact_mod_cast hb2
  have haQ1 : (1:ℚ) ≤ (a:ℚ) := by exact_mod_cast ha
  have hbQ1 : (1:ℚ) ≤ (b:ℚ) := by exact_mod_cast hb
  set v1 : ℚ := (a:ℚ) * x / b with hv1def
  have hv1nn : 0 ≤ v1 := by positivity
  have haxle : (a:ℚ) * x ≤ 2^50 := by
    have h1 : (a:ℚ) * x ≤ 65535 * x := mul_le_mul_of_nonneg_right ha2Q hxQ
    have h2 : (65535:ℚ) * x ≤ 65535 * 65535 := mul_le_mul_of_nonneg_left hx2Q (by norm_num)
    have h3 : (65535:ℚ) * 65535 ≤ 2^50 := by norm_num
    linarith
  have hv1 : v1 ≤ 2^50 := by
    have h0 : (0:ℚ) ≤ (a:ℚ) * x := by positivity
    have : v1 ≤ (a:ℚ) * x := by
      rw [hv1def, div_le_iff₀ hbQ]
      nlinarith [mul_le_mul_of_nonneg_left hbQ1 h0]
    linarith
  obtain ⟨hy1, hy2⟩ := rescale_floor_close x a b hx ha hb (by omega) (by omega) hv1
  rw [← hv1def] at hy1 hy2
  set y := rescale x a b with hydef
  have hy0 : 0 ≤ y := rescale_nonneg x a b
  have hyQ : (y:ℚ) ≤ v1 + 1 := by
    have hc1 : ((⌊v1⌋ : ℤ) : ℚ) ≤ v1 := Int.floor_le v1
    have hc2 : ((y:ℤ):ℚ) ≤ ((⌊v1⌋ + 1 : ℤ) : ℚ) := Int.cast_le.mpr hy2
    push_cast at hc2
    linarith
  have hyQ2 : v1 - 2 ≤ (y:ℚ) := by
    have hc1 : v1 < ((⌊v1⌋ : ℤ) : ℚ) + 1 := Int.lt_floor_add_one v1
    have hc2 : ((⌊v1⌋ - 1 : ℤ) : ℚ) ≤ ((y:ℤ):ℚ) := Int.cast_le.mpr hy1
    push_cast at hc2
    linarith
  set v2 : ℚ := (b:ℚ) * y / a with hv2def
  have hbv1 : (b:ℚ) * v1 = (a:ℚ) * x := by
    rw [hv1def, mul_comm]
    exact div_mul_cancel₀ _ (ne_of_gt hbQ)
  have hv2u : v2 ≤ (x:ℚ) + (b:ℚ)/(a:ℚ) := by
    have hnum : (b:ℚ) * y ≤ (b:ℚ) * (v1 + 1) := by
      apply mul_le_mul_of_nonneg_left hyQ (le_of_lt hbQ)
    have h1 : v2 ≤ (b:ℚ) * (v1 + 1) / a := by
      rw [hv2def]
      exact div_le_div_of_nonneg_right hnum (le_of_lt haQ)
    have h2 : (b:ℚ) * (v1 + 1) / a = (x:ℚ) + (b:ℚ)/(a:ℚ) := by
      rw [mul_add, hbv1, mul_one]
      field_simp
      ring
    linarith
  have hv2l : (x:ℚ) - 2 * ((b:ℚ)/(a:ℚ)) ≤ v2 := by
    have hnum : (b:ℚ) * (v1 - 2) ≤ (b:ℚ) * y := by
      apply mul_le_mul_of_nonneg_left hyQ2 (le_of_lt hbQ)
    have h1 : (b:ℚ) * (v1 - 2) / a ≤ v2 := by
      rw [hv2def]
      exact div_le_div_of_nonneg_right hnum (le_of_lt haQ)
    have h2 : (b:ℚ) * (v1 - 2) / a = (x:ℚ) - 2 * ((b:ℚ)/(a:ℚ)) := by
      rw [mul_sub, hbv1]
      field_simp
      ring
    linarith
  have hv2hi : v2 ≤ 2^50 := by
    have h3 : (x:ℚ) + (b:ℚ)/(a:ℚ) ≤ 65535 + 65535 := by
      have : (b:ℚ)/(a:ℚ) ≤ (b:ℚ) := by
        rw [div_le_iff₀ haQ]
        nlinarith
      linarith
    calc v2 ≤ (x:ℚ) + (b:ℚ)/(a:ℚ) := hv2u
      _ ≤ 65535 + 65535 := h3
      _ ≤ 2^50 := by norm_num
  obtain ⟨hz1, hz2⟩ := rescale_floor_close y b a hy0 hb ha (by omega) (by omega) hv2hi
  rw [← hv2def] at hz1 hz2
  set z := rescale y b a with hzdef
  set t : ℚ := (b:ℚ)/(a:ℚ) with htdef
  have htpos : 0 < t := div_pos hbQ haQ
  have hct : 1 ≤ ⌈t⌉ := by
    have : (0:ℤ) < ⌈t⌉ := Int.lt_ceil.mpr (by exact_mod_cast htpos)
    omega
  have hfu : ⌊v2⌋ ≤ x + ⌈t⌉ := by
    have h1 : ⌊v2⌋ ≤ ⌊(x:ℚ) + t⌋ := Int.floor_le_floor hv2u
    rw [show (x:ℚ) + t = ((x:ℤ):ℚ) + t from rfl, Int.floor_int_add] at h1
    have h2 : ⌊t⌋ ≤ ⌈t⌉ := Int.floor_le_ceil t
    omega
  have hfl : x - 2 * ⌈t⌉ ≤ ⌊v2⌋ := by
    have h1 : ⌊(x:ℚ) - 2*t⌋ ≤ ⌊v2⌋ := Int.floor_le_floor hv2l
    have h2 : (x:ℚ) - 2*t = ((x:ℤ):ℚ) + (-(2*t)) := by ring
    rw [h2, Int.floor_int_add, Int.floor_neg] at h1
    have h3 : ⌈2*t⌉ ≤ 2 * ⌈t⌉ := by
      have := Int.ceil_add_le t t
      have h4 : (2:ℚ)*t = t + t := by ring
      rw [h4]
      omega
    omega
  rw [abs_le]
  constructor
  · omega
  · omega

/-
  Lemmas about the buffer reads and the pulse sequence decoder.
-/

theorem u16?_isSome (b : Buf) (i : ℕ) (h : i + 2 ≤ b.length) :
    u16? b i = some (beVal ((b.drop i).take 2)) := by
  simp [u16?, read?, if_pos h]

theorem unpack_seq_total (n : ℕ) : ∀ (b : Buf) (i : ℕ), i + 4*n ≤ b.length →
    ∃ l, unpack_seq b i n = some l ∧ l.length = 2*n ∧
      ∀ j, j < n → l[2*j]? = u16? b (i+4*j) ∧ l[2*j+1]? = u16? b (i+4*j+2) := by
  induction n with
  | zero =>
    intro b i h
    exact ⟨[], rfl, rfl, fun j hj => absurd hj (Nat.not_lt_zero j)⟩
  | succ n ih =>
    intro b i h
    have hv1 := u16?_isSome b i (by omega)
    have hv2 := u16?_isSome b (i+2) (by omega)
    obtain ⟨rest, hrest, hlen, hidx⟩ := ih b (i+4) (by omega)
    refine ⟨beVal ((b.drop i).take 2) :: beVal ((b.drop (i+2)).take 2) :: rest, ?_, ?_, ?_⟩
    · simp [unpack_seq, hv1, hv2, hrest]
    · simp [hlen]; omega
    · intro j hj
      cases j with
      | zero =>
        constructor
        · simpa using hv1.symm
        · simpa using hv2.symm
      | succ j' =>
        have hj' : j' < n := by omega
        obtain ⟨ha, hb⟩ := hidx j' hj'
        have e1 : 2*(j'+1) = 2*j' + 1 + 1 := by ring
        have e2 : 2*(j'+1) + 1 = 2*j' + 1 + 1 + 1 := by ring
        have e3 : i + 4 + 4*j' = i + 4*(j'+1) := by ring
        have e4 : i + 4 + 4*j' + 2 = i + 4*(j'+1) + 2 := by ring
        constructor
        · rw [e1]
          simpa [← e3] using ha
        · rw [e2]
          simpa [← e4] using hb

theorem take_drop_frame (b b' : Buf) (i k : ℕ)
    (hlen : b.length = b'.length)
    (hag : ∀ t, i ≤ t → t < i + k → b[t]? = b'[t]?) :
    (b.drop i).take k = (b'.drop i).take k := by
  apply List.ext_getElem?_iff.mpr
  intro m
  by_cases hm : m < k
  · rw [List.getElem?_take_of_lt hm, List.getElem?_take_of_lt hm,
      List.getElem?_drop, List.getElem?_drop]
    exact hag (i+m) (by omega) (by omega)
  · have h1 : ((b.drop i).take k).length ≤ m := by
      simp [List.length_take, List.length_drop]
      omega
    have h2 : ((b'.drop i).take k).length ≤ m := by
      simp [List.length_take, List.length_drop]
      omega
    rw [List.getElem?_eq_none h1, List.getElem?_eq_none h2]

theorem u16?_frame (b b' : Buf) (i : ℕ)
    (hlen : b.length = b'.length)
    (hag : ∀ t, i ≤ t → t < i + 2 → b[t]? = b'[t]?) :
    u16? b i = u16? b' i := by
  unfold u16? read?
  rw [hlen, take_drop_frame b b' i 2 hlen hag]

theorem unpack_seq_frame (n : ℕ) : ∀ (b b' : Buf) (i : ℕ),
    b.length = b'.length →
    (∀ t, i ≤ t → t < i + 4*n → b[t]? = b'[t]?) →
    unpack_seq b i n = unpack_seq b' i n := by
  induction n with
  | zero => intro b b' i _ _; rfl
  | succ n ih =>
    intro b b' i hlen hag
    have h1 : u16? b i = u16? b' i :=
      u16?_frame b b' i hlen (fun t ht1 ht2 => hag t ht1 (by omega))
    have h2 : u16? b (i+2) = u16? b' (i+2) :=
      u16?_frame b b' (i+2) hlen (fun t ht1 ht2 => hag t (by omega) (by omega))
    have h3 : unpack_seq b (i+4) n = unpack_seq b' (i+4) n :=
      ih b b' (i+4) hlen (fun t ht1 ht2 => hag t (by omega) (by omega))
    simp only [unpack_seq, h1, h2, h3]

/-
  Lemmas about the scanner.
-/

theorem findFrom_some (b : Buf) (fu : ℕ) : ∀ (off i : ℕ),
    findFrom b fu off = some i → off ≤ i ∧ i + 3 ≤ b.length := by
  induction fu with
  | zero => intro off i h; simp [findFrom] at h
  | succ fu ih =>
    intro off i h
    unfold findFrom at h
    split_ifs at h with h1 h2
    · obtain rfl := Option.some.inj h
      omega
    · have := ih (off+1) i h
      omega

theorem findFrom_none_of_big (b : Buf) (fu off : ℕ) (h : b.length < off + 3) :
    findFrom b fu off = none := by
  cases fu with
  | zero => rfl
  | succ fu => unfold findFrom; rw [if_pos h]

theorem scanLoop_ne_formatError (b : Buf) (a : Args) (kl kh : ℤ) (fuel : ℕ) :
    ∀ (off : ℕ) (acc : List (ℕ × DumpResult)),
    scanLoop b a kl kh fuel off acc ≠ .formatError := by
  induction fuel with
  | zero => intro off acc h; exact ScanResult.noConfusion h
  | succ fuel ih =>
    intro off acc h
    unfold scanLoop at h
    cases hfind : findFrom b (b.length + 1) off with
    | none => rw [hfind] at h; exact ScanResult.noConfusion h
    | some i =>
      simp only [hfind] at h
      cases hh : heuristic? b kl kh i with
      | none => simp only [hh] at h; exact ScanResult.noConfusion h
      | some c =>
        simp only [hh] at h
        cases c with
        | false => exact ih (i+3) acc h
        | true =>
          cases hd : dump_button b i a with
          | fatal => simp only [hd] at h; exact ScanResult.noConfusion h
          | rejected => simp only [hd] at h; exact ih (i+3) ((i, .rejected) :: acc) h
          | block btn => simp only [hd] at h; exact ih (i+3) ((i, .block btn) :: acc) h

theorem scanLoop_trace_sorted (b : Buf) (a : Args) (kl kh : ℤ) (fuel : ℕ) :
    ∀ (off : ℕ) (acc t : List (ℕ × DumpResult)),
    (∀ p, p ∈ acc → p.1 < off) →
    (acc.map Prod.fst).Pairwise (· > ·) →
    (scanLoop b a kl kh fuel off acc = .done t ∨
      scanLoop b a kl kh fuel off acc = .fatal t) →
    (t.map Prod.fst).Pairwise (· < ·) := by
  induction fuel with
  | zero =>
    intro off acc t hlt hpw h
    rcases h with h | h
    · obtain rfl := (ScanResult.done.injEq _ _).mp h
      rw [List.map_reverse, List.pairwise_reverse]
      exact hpw
    · exact ScanResult.noConfusion h
  | succ fuel ih =>
    intro off acc t hlt hpw h
    unfold scanLoop at h
    cases hfind : findFrom b (b.length + 1) off with
    | none =>
      simp only [hfind] at h
      rcases h with h | h
      · obtain rfl := (ScanResult.done.injEq _ _).mp h
        rw [List.map_reverse, List.pairwise_reverse]
        exact hpw
      · exact ScanResult.noConfusion h
    | some i =>
      have hoff := (findFrom_some b _ off i hfind).1
      simp only [hfind] at h
      cases hh : heuristic? b kl kh i with
      | none =>
        simp only [hh] at h
        rcases h with h | h
        · exact ScanResult.noConfusion h
        · obtain rfl := (ScanResult.fatal.injEq _ _).mp h
          rw [List.map_reverse, List.pairwise_reverse]
          exact hpw
      | some c =>
        simp only [hh] at h
        cases c with
        | false =>
          exact ih (i+3) acc t (fun p hp => by have := hlt p hp; omega) hpw h
        | true =>
          cases hd : dump_button b i a with
          | fatal =>
            simp only [hd] at h
            rcases h with h | h
            · exact ScanResult.noConfusion h
            · obtain rfl := (ScanResult.fatal.injEq _ _).mp h
              rw [List.map_append, List.map_reverse]
              rw [List.pairwise_append]
              refine ⟨by rw [List.pairwise_reverse]; exact hpw, by simp, ?_⟩
              intro x hx y hy
              simp at hy
              subst hy
              rw [List.mem_reverse, List.mem_map] at hx
              obtain ⟨p, hp, rfl⟩ := hx
              have := hlt p hp
              omega
          | rejected =>
            refine ih (i+3) ((i, .rejected) :: acc) t ?_ ?_ ?_
            · intro p hp
              rcases List.mem_cons.mp hp with rfl | hp
              · omega
              · have := hlt p hp; omega
            · rw [List.map_cons, List.pairwise_cons]
              refine ⟨?_, hpw⟩
              intro x hx
              rw [List.mem_map] at hx
              obtain ⟨p, hp, rfl⟩ := hx
              have := hlt p hp
              omega
            · simpa only [hd] using h
          | block btn =>
            refine ih (i+3) ((i, .block btn) :: acc) t ?_ ?_ ?_
            · intro p hp
              rcases List.mem_cons.mp hp with rfl | hp
              · omega
              · have := hlt p hp; omega
            · rw [List.map_cons, List.pairwise_cons]
              refine ⟨?_, hpw⟩
              intro x hx
              rw [List.mem_map] at hx
              obtain ⟨p, hp, rfl⟩ := hx
              have := hlt p hp
              omega
            · simpa only [hd] using h

theorem blocks_fst_sublist (t : List (ℕ × DumpResult)) :
    ((t.filterMap (fun p => match p.2 with
        | .block btn => some (p.1, btn) | _ => none)).map Prod.fst).Sublist
      (t.map Prod.fst) := by
  induction t with
  | nil => simp
  | cons p t ih =>
    obtain ⟨i, r⟩ := p
    cases r with
    | fatal => simpa [List.filterMap_cons] using ih.cons i
    | rejected => simpa [List.filterMap_cons] using ih.cons i
    | block btn => simpa [List.filterMap_cons] using ih.cons₂ i

theorem scanLoop_fuel_indep (b : Buf) (a : Args) (kl kh : ℤ) :
    ∀ (fuel1 fuel2 off : ℕ) (acc : List (ℕ × DumpResult)),
    b.length + 1 ≤ fuel1 + off → b.length + 1 ≤ fuel2 + off →
    scanLoop b a kl kh fuel1 off acc = scanLoop b a kl kh fuel2 off acc := by
  intro fuel1
  induction fuel1 with
  | zero =>
    intro fuel2 off acc h1 h2
    have hn : findFrom b (b.length + 1) off = none :=
      findFrom_none_of_big b _ off (by omega)
    cases fuel2 with
    | zero => rfl
    | succ f2 => simp [scanLoop, hn]
  | succ f1 ih =>
    intro fuel2 off acc h1 h2
    cases fuel2 with
    | zero =>
      have hn : findFrom b (b.length + 1) off = none :=
        findFrom_none_of_big b _ off (by omega)
      simp [scanLoop, hn]
    | succ f2 =>
      unfold scanLoop
      cases hfind : findFrom b (b.length + 1) off with
      | none => simp only [hfind]
      | some i =>
        have hoff := (findFrom_some b _ off i hfind).1
        simp only [hfind]
        cases hh : heuristic? b kl kh i with
        | none => simp only [hh]
        | some c =>
          cases c with
          | false => exact ih f2 (i+3) acc (by omega) (by omega)
          | true =>
            cases hd : dump_button b i a with
            | fatal => simp only [hd]
            | rejected => simp only [hd]; exact ih f2 (i+3) _ (by omega) (by omega)
            | block btn => simp only [hd]; exact ih f2 (i+3) _ (by omega) (by omega)

theorem u32?_isSome (b : Buf) (i : ℕ) (h : i + 4 ≤ b.length) :
    u32? b i = some (beVal ((b.drop i).take 4)) := by
  simp [u32?, read?, if_pos h]

theorem getElem?_some_of_lt (b : Buf) (j : ℕ) (h : j < b.length) :
    b[j]? = some (b.getD j 0) := by
  rw [List.getElem?_eq_getElem h, List.getD_eq_getElem b 0 h]

/-- Unfolding of `dump_button` once the five header reads are known. -/
theorem dump_button_eq (b : Buf) (i : ℕ) (a : Args)
    (n j base once_k rep_k : ℕ)
    (hn : u16? b (i-6) = some n) (hj : u32? b (i-4) = some j)
    (hb : u16? b (i+2) = some base) (ho : u16? b (i+4) = some once_k)
    (hr : u16? b (i+6) = some rep_k) :
    dump_button b i a =
      (if n = 6 + 8 + (once_k + rep_k) * 4 then
        match b[j]? with
        | none => .fatal
        | some l =>
          match unpack_seq b (i+8) once_k, unpack_seq b (i+8+once_k*4) rep_k with
          | some xs, some ys =>
            .block ⟨(b.drop (j+1)).take l,
                    (if rescaleActive a then freq2k (a.rescaleHz.getD 0) else (base : ℤ)),
                    base, once_k, rep_k, xs, ys,
                    dump_pairs_vals xs (base : ℤ) a, dump_pairs_vals ys (base : ℤ) a⟩
          | _, _ => .fatal
      else .rejected) := by
  unfold dump_button
  rw [hn, hj, hb, ho, hr]

theorem heuristic?_eq (b : Buf) (kl kh : ℤ) (i : ℕ) (v3 v4 v6 : ℕ)
    (h4 : b[i+4]? = some v4) (h6 : b[i+6]? = some v6) (h3 : b[i+3]? = some v3) :
    heuristic? b kl kh i =
      some (decide (v4 = 0 ∧ v6 = 0 ∧ kl < (v3:ℤ) ∧ (v3:ℤ) < kh)) := by
  unfold heuristic?
  simp only [h4]
  by_cases hv4 : v4 = 0
  · simp only [if_pos hv4, h6]
    by_cases hv6 : v6 = 0
    · simp only [if_pos hv6, h3]
      by_cases hkl : kl < (v3:ℤ)
      · by_cases hkh : (v3:ℤ) < kh
        · simp [hv4, hv6, hkl, hkh]
        · simp [hv4, hv6, hkl, hkh]
      · simp [hv4, hv6, hkl]
    · simp [hv4, hv6]
  · simp [hv4]

theorem scanLoop_step (b : Buf) (a : Args) (kl kh : ℤ) (fuel off : ℕ)
    (acc : List (ℕ × DumpResult)) (i : ℕ) (c : Bool)
    (hfind : findFrom b (b.length + 1) off = some i)
    (hh : heuristic? b kl kh i = some c) :
    scanLoop b a kl kh (fuel+1) off acc =
      (if c then
        match dump_button b i a with
        | .fatal => .fatal (acc.reverse ++ [(i, .fatal)])
        | r => scanLoop b a kl kh fuel (i+3) ((i, r) :: acc)
       else scanLoop b a kl kh fuel (i+3) acc) := by
  conv_lhs => rw [scanLoop]
  simp only [hfind, hh]
  cases c <;> simp

/-
  The claims.
-/

/-- Claim C1: for a candidate whose header begins at `h = i - 6` (with all
header, name-length and sequence reads in bounds), `dump_button` accepts the
candidate and emits a block if and only if the decoded big-endian size field
satisfies `size = 6 + 8 + (once_count + repeat_count) * 4`; a candidate
failing the check is rejected silently (no block, no error), and the scan
loop then simply continues with the offset after the marker. -/
theorem C1_size_check (b : Buf) (i : ℕ) (a : Args)
    (n j base once_k rep_k : ℕ)
    (hi : 6 ≤ i)
    (hn : u16? b (i-6) = some n) (hj : u32? b (i-4) = some j)
    (hbase : u16? b (i+2) = some base)
    (ho : u16? b (i+4) = some once_k) (hr : u16? b (i+6) = some rep_k)
    (hseq : i + 8 + (once_k + rep_k) * 4 ≤ b.length)
    (hname : j < b.length) :
    ((∃ btn, dump_button b i a = .block btn) ↔ n = 6 + 8 + (once_k + rep_k) * 4)
    ∧ (dump_button b i a = .rejected ↔ n ≠ 6 + 8 + (once_k + rep_k) * 4)
    ∧ (n ≠ 6 + 8 + (once_k + rep_k) * 4 →
       ∀ (kl kh : ℤ) (fuel off : ℕ) (acc : List (ℕ × DumpResult)),
        findFrom b (b.length + 1) off = some i →
        heuristic? b kl kh i = some true →
        scanLoop b a kl kh (fuel+1) off acc =
          scanLoop b a kl kh fuel (i+3) ((i, .rejected) :: acc)) := by
  have hd := dump_button_eq b i a n j base once_k rep_k hn hj hbase ho hr
  have hjr := getElem?_some_of_lt b j hname
  obtain ⟨xs, hxs, _, _⟩ := unpack_seq_total once_k b (i+8) (by omega)
  obtain ⟨ys, hys, _, _⟩ := unpack_seq_total rep_k b (i+8+once_k*4) (by omega)
  have hblk : n = 6 + 8 + (once_k + rep_k) * 4 →
      dump_button b i a = .block
        ⟨(b.drop (j+1)).take (b.getD j 0),
         (if rescaleActive a then freq2k (a.rescaleHz.getD 0) else (base : ℤ)),
         base, once_k, rep_k, xs, ys,
         dump_pairs_vals xs (base : ℤ) a, dump_pairs_vals ys (base : ℤ) a⟩ := by
    intro hsz
    rw [hd, if_pos hsz]
    simp only [hjr, hxs, hys]
  have hrejd : n ≠ 6 + 8 + (once_k + rep_k) * 4 → dump_button b i a = .rejected := by
    intro hsz
    rw [hd, if_neg hsz]
  have hrej : dump_button b i a = .rejected ↔ n ≠ 6 + 8 + (once_k + rep_k) * 4 := by
    constructor
    · intro h hsz
      rw [hblk hsz] at h
      exact DumpResult.noConfusion h
    · exact hrejd
  refine ⟨?_, hrej, ?_⟩
  · constructor
    · intro ⟨btn, hbtn⟩
      by_contra hsz
      rw [hrejd hsz] at hbtn
      exact DumpResult.noConfusion hbtn
    · intro hsz
      exact ⟨_, hblk hsz⟩
  · intro hsz kl kh fuel off acc hfind hh
    have hstep := scanLoop_step b a kl kh fuel off acc i true hfind hh
    rw [hstep, if_pos rfl, hrej.mpr hsz]

/-- Claim C1 witness: the block of `B3` at marker 42 satisfies the size
invariant (`18 = 6 + 8 + (1 + 0) * 4`) and is accepted. -/
theorem C1_size_check_witness : ∃ btn, dump_button B3 42 args40 = .block btn :=
  ((C1_size_check B3 42 args40 18 75 103 1 0 (by decide) (by decide) (by decide)
    (by decide) (by decide) (by decide) (by decide) (by decide)).1).mpr (by decide)

/-- Claim C4: the loader reports a format error exactly when the 8 bytes at
offset 8 or the 4 bytes at offset 32 differ from the fixed magic constants;
in that case no block is reported, and when both match, scanning proceeds
(no format error can arise later). -/
theorem C4_magic_check (b : Buf) (a : Args) :
    (search_ccf b a = .formatError ↔
      ¬((b.drop 8).take 8 = magic1 ∧ (b.drop 32).take 4 = magic2))
    ∧ (search_ccf b a = .formatError → blocksOf (search_ccf b a) = []) := by
  constructor
  · constructor
    · intro h hmag
      unfold search_ccf at h
      rw [if_pos hmag] at h
      exact scanLoop_ne_formatError b a _ _ _ 0 [] h
    · intro hmag
      unfold search_ccf
      rw [if_neg hmag]
  · intro h
    rw [h]
    rfl

/-- Claim C4 witness: the empty buffer has no magic signatures and fails. -/
theorem C4_magic_check_witness : search_ccf [] args40 = .formatError :=
  (C4_magic_check [] args40).1.mpr (by decide)

/-- Claim C5: when the bytes `[i, i+4n)` lie within the buffer, `unpack_seq`
returns exactly `2n` values where element `2j` is the big-endian u16 at
offset `i+4j` (the on time) and element `2j+1` the big-endian u16 at offset
`i+4j+2` (the off time); and it reads exactly those `4n` bytes: any buffer of
the same length agreeing on that window yields the same result. -/
theorem C5_unpack_seq_pairs (b : Buf) (i n : ℕ) (h : i + 4*n ≤ b.length) :
    (∃ l, unpack_seq b i n = some l ∧ l.length = 2*n ∧
      ∀ j, j < n → l[2*j]? = u16? b (i+4*j) ∧ l[2*j+1]? = u16? b (i+4*j+2))
    ∧ (∀ b' : Buf, b.length = b'.length →
        (∀ t, i ≤ t → t < i + 4*n → b[t]? = b'[t]?) →
        unpack_seq b i n = unpack_seq b' i n) :=
  ⟨unpack_seq_total n b i h,
   fun b' hlen hag => unpack_seq_frame n b b' i hlen hag⟩

/-- Claim C5 witness: the once sequence of the first `B3` block. -/
theorem C5_unpack_seq_pairs_witness :
    ∃ l, unpack_seq B3 50 1 = some l ∧ l.length = 2*1 ∧
      ∀ j, j < 1 → l[2*j]? = u16? B3 (50+4*j) ∧ l[2*j+1]? = u16? B3 (50+4*j+2) :=
  (C5_unpack_seq_pairs B3 50 1 (by decide)).1

/-- Claim C10: the scan loop terminates and its fuel is irrelevant beyond the
remaining buffer length: `search_ccf` runs it with fuel `b.length + 1`, every
found marker lies in bounds at or after the current offset (so each iteration
advances by at least the 3-byte marker length), and any two sufficient fuels
give the same result. -/
theorem C10_scan_terminates (b : Buf) (a : Args) (kl kh : ℤ)
    (fuel1 fuel2 off : ℕ) (acc : List (ℕ × DumpResult))
    (h1 : b.length + 1 ≤ fuel1 + off) (h2 : b.length + 1 ≤ fuel2 + off) :
    scanLoop b a kl kh fuel1 off acc = scanLoop b a kl kh fuel2 off acc
    ∧ (∀ i, findFrom b (b.length + 1) off = some i → off ≤ i ∧ i + 3 ≤ b.length) :=
  ⟨scanLoop_fuel_indep b a kl kh fuel1 fuel2 off acc h1 h2,
   fun i hi => findFrom_some b _ off i hi⟩

/-- Claim C10 witness: two ample fuels agree on scanning `B3`. -/
theorem C10_scan_terminates_witness :
    scanLoop B3 args40 99 106 100 0 [] = scanLoop B3 args40 99 106 77 0 [] :=
  (C10_scan_terminates B3 args40 99 106 100 77 0 [] (by decide) (by decide)).1

/-- Claim C6 counterexample: the claim says `rescale(x, old_k, new_k)` is the
exact rational product truncated toward zero, but the source computes it with
double-precision floats: at `x = 49`, `old_k = 1`, `new_k = 49` the float
product `1/49 * 49` is `0.9999999999999999 < 1`, so the code returns 0 while
the exact truncated value is 1. -/
theorem C6_counterexample :
    rescale 49 1 49 = 0 ∧ ⌊((1:ℚ) * 49 / 49)⌋ = 1 :=
  ⟨by decide, by decide⟩

/-- Claim C6 amended: `rescale(x, old_k, new_k)` is the truncation toward zero
of the double-precision product `fl(fl(old_k/new_k) · x)`; for inputs in the
16-bit range of the format this lies within 1 of the exact rational floor
(and can genuinely differ from it by 1, see the counterexample). -/
theorem C6_amended_rescale_close (x a b : ℤ)
    (hx : 0 ≤ x) (hx2 : x ≤ 65535) (ha : 1 ≤ a) (ha2 : a ≤ 65535)
    (hb : 1 ≤ b) (hb2 : b ≤ 65535) :
    |rescale x a b - ⌊(a:ℚ) * x / b⌋| ≤ 1 := by
  have haQ : (0:ℚ) < (a:ℚ) := by exact_mod_cast (by omega : (0:ℤ) < a)
  have hbQ : (0:ℚ) < (b:ℚ) := by exact_mod_cast (by omega : (0:ℤ) < b)
  have hbQ1 : (1:ℚ) ≤ (b:ℚ) := by exact_mod_cast hb
  have hxQ : (0:ℚ) ≤ (x:ℚ) := by exact_mod_cast hx
  have hx2Q : (x:ℚ) ≤ 65535 := by exact_mod_cast hx2
  have ha2Q : (a:ℚ) ≤ 65535 := by exact_mod_cast ha2
  have hv : (a:ℚ) * x / b ≤ 2^50 := by
    have h0 : (0:ℚ) ≤ (a:ℚ) * x := by positivity
    have h1 : (a:ℚ) * x ≤ 65535 * x := mul_le_mul_of_nonneg_right ha2Q hxQ
    have h2 : (65535:ℚ) * x ≤ 65535 * 65535 := mul_le_mul_of_nonneg_left hx2Q (by norm_num)
    have h3 : (a:ℚ) * x / b ≤ (a:ℚ) * x := by
      rw [div_le_iff₀ hbQ]
      nlinarith [mul_le_mul_of_nonneg_left hbQ1 h0]
    have h4 : (65535:ℚ) * 65535 ≤ 2^50 := by norm_num
    linarith
  obtain ⟨h1, h2⟩ := rescale_floor_close x a b hx ha hb (by omega) (by omega) hv
  rw [abs_le]
  omega

/-- Claim C6 amended witness: `rescale 3 2 5 = 1` is within 1 of `⌊6/5⌋`. -/
theorem C6_amended_rescale_close_witness :
    |rescale 3 2 5 - ⌊((2:ℚ) * 3 / 5)⌋| ≤ 1 :=
  C6_amended_rescale_close 3 2 5 (by decide) (by decide) (by decide) (by decide)
    (by decide) (by decide)

/-- Claim C7 witness: rescaling 100 from factor 103 to 112 and back lands
within the truncation tolerance `2⌈112/103⌉ + 2`. -/
theorem C7_rescale_roundtrip_witness :
    |rescale (rescale 100 103 112) 112 103 - 100| ≤ 2 * ⌈(112:ℚ)/(103:ℚ)⌉ + 2 :=
  C7_rescale_roundtrip 100 103 112 (by decide) (by decide) (by decide) (by decide)
    (by decide) (by decide)

/-- Claim C2 counterexample: the claim asserts the candidate is handed to the
validator if and only if `b[i+4] = 0`, `b[i+6] = 0` and `b[i+3]` lies in the
INCLUSIVE band `[floor(0.97 k), ceil(1.03 k)]`.  The code (line 159) uses
STRICT comparisons against `int`-truncated bounds: at the default 40 kHz
carrier the code band is `(99, 106)` exclusive, the spec band `[99, 107]`
inclusive.  In `B2` the scanner finds the marker 42 of a structurally valid
block with `b[45] = 106`: the spec heuristic accepts it, yet the scan reports
nothing at all — the candidate was never handed to the validator. -/
theorem C2_counterexample :
    findFrom B2 (B2.length + 1) 0 = some 38 ∧
    findFrom B2 (B2.length + 1) 41 = some 42 ∧
    specHeuristic B2 42 40000 = true ∧
    dump_button B2 42 args40 = .block btnB2 ∧
    search_ccf B2 args40 = .done [] :=
  ⟨by decide, by decide, by decide, by decide, by decide⟩

/-- Claim C2 amended: for every marker offset `i` found by the scanner, the
candidate is handed to the Button Block Validator if and only if
`b[i+4] = 0`, `b[i+6] = 0`, and `k_low < b[i+3] < k_high` with STRICT
comparisons, where `k_low = int(k*0.97)` and `k_high = int(k*1.03)` are the
float-computed, truncated bounds (`search_ccf` instantiates
`kl = k_low (freq2k carrier)`, `kh = k_high (freq2k carrier)`; at the default
40 kHz this accepts exactly the bytes 100..105). -/
theorem C2_amended_strict_band (b : Buf) (a : Args) (kl kh : ℤ)
    (i v3 v4 v6 fuel off : ℕ) (acc : List (ℕ × DumpResult))
    (hfind : findFrom b (b.length + 1) off = some i)
    (h4 : b[i+4]? = some v4) (h6 : b[i+6]? = some v6) (h3 : b[i+3]? = some v3) :
    scanLoop b a kl kh (fuel+1) off acc =
      (if v4 = 0 ∧ v6 = 0 ∧ kl < (v3:ℤ) ∧ (v3:ℤ) < kh then
        (match dump_button b i a with
         | .fatal => .fatal (acc.reverse ++ [(i, .fatal)])
         | r => scanLoop b a kl kh fuel (i+3) ((i, r) :: acc))
       else scanLoop b a kl kh fuel (i+3) acc) := by
  have hh := heuristic?_eq b kl kh i v3 v4 v6 h4 h6 h3
  rw [scanLoop_step b a kl kh fuel off acc i _ hfind hh]
  by_cases hc : v4 = 0 ∧ v6 = 0 ∧ kl < (v3:ℤ) ∧ (v3:ℤ) < kh
  · rw [decide_eq_true hc, if_pos rfl, if_pos hc]
  · rw [decide_eq_false hc, if_neg (by simp : ¬(false = true)), if_neg hc]

/-- Claim C2 amended witness: at `B2`, marker 42, with the concrete default
band `(99, 106)`, the byte 106 fails the strict upper bound and the scan just
moves on. -/
theorem C2_amended_strict_band_witness :
    k_low (freq2k 40000) = 99 ∧ k_high (freq2k 40000) = 106 ∧
    scanLoop B2 args40 99 106 20 41 [] = scanLoop B2 args40 99 106 19 45 [] := by
  refine ⟨by decide, by decide, ?_⟩
  rw [C2_amended_strict_band B2 args40 99 106 42 106 0 0 19 41 []
    (by decide) (by decide) (by decide) (by decide)]
  decide

/-- Claim C3 counterexample: the claim asserts that any name-string read
running past the end of the buffer is a fatal truncation error ending the
whole scan.  In `B3` the block at marker 42 has its name at offset 75 with
length byte 5, so the character read `b[76:81]` runs past the end (length 76);
Python's clamping slice silently yields an empty name instead of raising, the
scan completes, and the later block at marker 60 is still reported. -/
theorem C3_counterexample :
    B3[75]? = some 5 ∧ B3.length = 76 ∧
    dump_button B3 42 args40 = .block btnB3a ∧ btnB3a.name = [] ∧
    isDone (search_ccf B3 args40) = true ∧
    (blocksOf (search_ccf B3 args40)).map Prod.fst = [42, 60] :=
  ⟨by decide, by decide, by decide, by decide, by decide, by decide⟩

/-- Claim C3 amended: during validation, a header field read, the name LENGTH
byte read, or a pulse-pair read past the end of the buffer is fatal (the
exception propagates and, as the last conjunct shows, ends the scan at that
candidate, so no later candidate is handed); the name CHARACTER bytes, by
contrast, are read with a clamping slice and are silently truncated, never an
error. -/
theorem C3_amended_truncation (b : Buf) (i : ℕ) (a : Args) (hi : 6 ≤ i) :
    (b.length < i + 8 → dump_button b i a = .fatal)
    ∧ (∀ n j base once_k rep_k,
        u16? b (i-6) = some n → u32? b (i-4) = some j →
        u16? b (i+2) = some base → u16? b (i+4) = some once_k →
        u16? b (i+6) = some rep_k →
        n = 6 + 8 + (once_k + rep_k) * 4 →
        (b.length ≤ j → dump_button b i a = .fatal)
        ∧ (j < b.length → unpack_seq b (i+8) once_k = none →
            dump_button b i a = .fatal)
        ∧ (j < b.length →
            ∀ xs ys, unpack_seq b (i+8) once_k = some xs →
              unpack_seq b (i+8+once_k*4) rep_k = some ys →
              ∃ btn, dump_button b i a = .block btn ∧
                btn.name = (b.drop (j+1)).take (b.getD j 0) ∧
                btn.name.length = min (b.getD j 0) (b.length - (j+1))))
    ∧ (∀ (kl kh : ℤ) (fuel off : ℕ) (acc : List (ℕ × DumpResult)),
        findFrom b (b.length + 1) off = some i →
        heuristic? b kl kh i = some true →
        dump_button b i a = .fatal →
        scanLoop b a kl kh (fuel+1) off acc = .fatal (acc.reverse ++ [(i, .fatal)])) := by
  refine ⟨?_, ?_, ?_⟩
  · intro hlen
    have h5 : u16? b (i+6) = none := by
      unfold u16? read?
      rw [if_neg (by omega : ¬(i+6+2 ≤ b.length))]
      rfl
    unfold dump_button
    cases e1 : u16? b (i-6) with
    | none => rfl
    | some n1 =>
      cases e2 : u32? b (i-4) with
      | none => rfl
      | some j1 =>
        cases e3 : u16? b (i+2) with
        | none => rfl
        | some base1 =>
          cases e4 : u16? b (i+4) with
          | none => rfl
          | some once1 =>
            rw [h5]
  · intro n j base once_k rep_k hn hj hbase ho hr hsz
    have hd := dump_button_eq b i a n j base once_k rep_k hn hj hbase ho hr
    refine ⟨?_, ?_, ?_⟩
    · intro hjlen
      have hjn : b[j]? = none := List.getElem?_eq_none hjlen
      rw [hd, if_pos hsz, hjn]
    · intro hjlt hnone
      have hjr := getElem?_some_of_lt b j hjlt
      rw [hd, if_pos hsz]
      simp only [hjr, hnone]
    · intro hjlt xs ys hxs hys
      have hjr := getElem?_some_of_lt b j hjlt
      have hblk : dump_button b i a = .block
          ⟨(b.drop (j+1)).take (b.getD j 0),
           (if rescaleActive a then freq2k (a.rescaleHz.getD 0) else (base : ℤ)),
           base, once_k, rep_k, xs, ys,
           dump_pairs_vals xs (base : ℤ) a, dump_pairs_vals ys (base : ℤ) a⟩ := by
        rw [hd, if_pos hsz]
        simp only [hjr, hxs, hys]
      exact ⟨_, hblk, rfl, by simp [List.length_take, List.length_drop]⟩
  · intro kl kh fuel off acc hfind hh hdump
    rw [scanLoop_step b a kl kh fuel off acc i true hfind hh, if_pos rfl, hdump]

/-- Claim C3 amended witness: on the empty buffer every header read is out of
bounds and `dump_button` is fatal. -/
theorem C3_amended_truncation_witness : dump_button [] 6 args40 = .fatal :=
  (C3_amended_truncation [] 6 args40 (by decide)).1 (by decide)

/-- Claim C8: on every input on which the scan completes, the reported blocks
carry strictly ascending marker offsets — each reported block's offset exceeds
every previously reported one — purely as a consequence of the sequential
scan (no sort appears anywhere in the model). -/
theorem C8_ascending_offsets (b : Buf) (a : Args) (t : List (ℕ × DumpResult))
    (h : search_ccf b a = .done t) :
    ((blocksOf (.done t)).map Prod.fst).Pairwise (· < ·) := by
  have hs : (t.map Prod.fst).Pairwise (· < ·) := by
    unfold search_ccf at h
    by_cases hmag : ((b.drop 8).take 8 = magic1 ∧ (b.drop 32).take 4 = magic2)
    · rw [if_pos hmag] at h
      exact scanLoop_trace_sorted b a _ _ _ 0 [] t (by simp) (by simp) (Or.inl h)
    · rw [if_neg hmag] at h
      exact ScanResult.noConfusion h
  exact List.Pairwise.sublist (blocks_fst_sublist t) hs

/-- Claim C8 witness: scanning `B3` completes with blocks at offsets 42 and
60, in strictly ascending order. -/
theorem C8_ascending_offsets_witness :
    ((blocksOf (.done traceB3)).map Prod.fst).Pairwise (· < ·) :=
  C8_ascending_offsets B3 args40 traceB3 (by decide)

/-- Claim C9: when both `--lirc` and `--rescale` are supplied, the printed
pulse values are the µs conversions `to_usec` computed with the block's
ORIGINAL carrier factor (`dump_button` passes `base`, not the rescaled
`baseP`, to `dump_pairs`), and the rescale option has no effect on them:
changing it arbitrarily leaves every printed pulse value unchanged. -/
theorem C9_lirc_precedence (a : Args) (hl : a.lirc = true) :
    (∀ (xs : List ℕ) (base : ℤ),
      dump_pairs_vals xs base a = xs.map (fun x => to_usec (x:ℤ) base))
    ∧ (∀ (b : Buf) (i : ℕ) (btn : Button),
        dump_button b i a = .block btn →
        btn.onceVals = btn.onceRaw.map (fun x => to_usec (x:ℤ) (btn.base:ℤ)) ∧
        btn.repVals = btn.repRaw.map (fun x => to_usec (x:ℤ) (btn.base:ℤ)))
    ∧ (∀ (r : Option ℤ) (xs : List ℕ) (base : ℤ),
        dump_pairs_vals xs base { a with rescaleHz := r } =
          dump_pairs_vals xs base a) := by
  have hvals : ∀ (xs : List ℕ) (base : ℤ),
      dump_pairs_vals xs base a = xs.map (fun x => to_usec (x:ℤ) base) := by
    intro xs base
    unfold dump_pairs_vals
    rw [if_pos hl]
  refine ⟨hvals, ?_, ?_⟩
  · intro b i btn h
    unfold dump_button at h
    cases e1 : u16? b (i-6) with
    | none => rw [e1] at h; exact DumpResult.noConfusion h
    | some n =>
      cases e2 : u32? b (i-4) with
      | none => rw [e1, e2] at h; exact DumpResult.noConfusion h
      | some j =>
        cases e3 : u16? b (i+2) with
        | none => rw [e1, e2, e3] at h; exact DumpResult.noConfusion h
        | some base =>
          cases e4 : u16? b (i+4) with
          | none => rw [e1, e2, e3, e4] at h; exact DumpResult.noConfusion h
          | some once_k =>
            cases e5 : u16? b (i+6) with
            | none => rw [e1, e2, e3, e4, e5] at h; exact DumpResult.noConfusion h
            | some rep_k =>
              simp only [e1, e2, e3, e4, e5] at h
              by_cases hsz : n = 6 + 8 + (once_k + rep_k) * 4
              · rw [if_pos hsz] at h
                cases ej : b[j]? with
                | none => rw [ej] at h; exact DumpResult.noConfusion h
                | some l =>
                  simp only [ej] at h
                  cases ex : unpack_seq b (i+8) once_k with
                  | none => simp only [ex] at h; exact DumpResult.noConfusion h
                  | some xs =>
                    cases ey : unpack_seq b (i+8+once_k*4) rep_k with
                    | none => simp only [ex, ey] at h; exact DumpResult.noConfusion h
                    | some ys =>
                      simp only [ex, ey] at h
                      obtain rfl := (DumpResult.block.injEq _ _).mp h.symm
                      constructor
                      · exact hvals xs (base:ℤ)
                      · exact hvals ys (base:ℤ)
              · rw [if_neg hsz] at h
                exact DumpResult.noConfusion h
  · intro r xs base
    unfold dump_pairs_vals
    rw [if_pos hl, if_pos hl]

/-- Claim C9 witness: with `--lirc` and `--rescale 38000` both set, the
printed values are µs conversions by the original factor 103. -/
theorem C9_lirc_precedence_witness :
    dump_pairs_vals [96, 24] 103 argsLirc =
      List.map (fun x => to_usec (x:ℤ) 103) [96, 24] :=
  (C9_lirc_precedence argsLirc rfl).1 [96, 24] 103

end CCF
